import Mathlib

/-!
Verification development for the tensor serialization and batched key-value
persistence layer of `tpu_perf` (`python/tpu_perf/io.py`).

Shallow embedding conventions:

* numpy arrays are modelled by `NDArray`: a dtype, a shape (list of dimension
  sizes) and a flat element list.  Array elements are modelled abstractly as
  integers: for the six integer dtypes an element is its integer value; for the
  float dtypes an element is an abstract scalar token (for `float16` the token
  stands for the 16-bit machine representation wherever raw bytes are taken).
  The casts `astype(np.float32)` applied to `float32`/`float16` data are
  value-exact (every `float16`/`float32` value is exactly representable as a
  32-bit float), so they are modelled as the identity on tokens; the cast
  `astype(np.int32)` is the C-style wrap into `[-2^31, 2^31)`.
* protobuf messages (`BlobProto`, `BlobProtoVector`, `Datum` from `blob_pb2`,
  which is generated code not present in the repository sources) are modelled
  as structures.  Modelled from the spec: the `Dtype` enum of `blob_pb2` is a
  fixed bijection between the eight registered dtypes and small integer tags;
  concrete tag values are chosen canonically (FP32 = 0, ..., UINT32 = 7) since
  only bijectivity is observable.  `SerializeToString`/`ParseFromString` of a
  well-formed message round-trip and are modelled as the identity, so byte
  strings of serialized messages are represented by the messages themselves.
* Python exceptions are modelled by `Except PyErr`; the distinct exception
  classes that matter to the spec's error taxonomy are kept separate
  (`valueError` is numpy's reshape/view failure, i.e. the spec's
  `ShapeMismatch`; `unsupportedDtype` covers both the `KeyError` of the dtype
  registry lookup and the explicit "unsupported numpy dtype" exception, i.e.
  the spec's `UnsupportedDtype`; `indexError` is the Python `IndexError`).
* byte strings (LMDB keys, `tostring()` payloads) are lists of byte values.
-/

set_option autoImplicit false

namespace TpuPerfIO

/-- The numpy dtypes relevant to the module: the eight registered ones plus
`float64` and `int64` as representatives of unregistered dtypes (`float64`
additionally appears in the float-cast tuple of `array_to_blobproto`). -/
inductive DType where
  | fp32 | fp16 | i8 | u8 | i16 | u16 | i32 | u32 | f64 | i64
  deriving DecidableEq, Repr

/-- `numpy` itemsize in bytes of each dtype. -/
def DType.itemsize : DType → Nat
  | .fp32 => 4
  | .fp16 => 2
  | .i8 => 1
  | .u8 => 1
  | .i16 => 2
  | .u16 => 2
  | .i32 => 4
  | .u32 => 4
  | .f64 => 8
  | .i64 => 8

/-- Whether the dtype's raw-byte representation is read back as a signed
two's-complement integer (`.view(np_dtype[...])` on the decode side).  The
float dtypes' tokens stand for their machine representation, reinterpreted
unsigned. -/
def DType.signed : DType → Bool
  | .i8 => true
  | .i16 => true
  | .i32 => true
  | .i64 => true
  | _ => false

/-- `ufw_dtype`: the registry from numpy dtype to wire tag (`dtype_dict` /
`ufw_dtype` in the source).  `none` models the `KeyError` of a failed lookup. -/
def ufw_dtype : DType → Option Nat
  | .fp32 => some 0
  | .fp16 => some 1
  | .i8 => some 2
  | .u8 => some 3
  | .i16 => some 4
  | .u16 => some 5
  | .i32 => some 6
  | .u32 => some 7
  | _ => none

/-- `np_dtype`: the inverse registry from wire tag to numpy dtype. -/
def np_dtype : Nat → Option DType
  | 0 => some .fp32
  | 1 => some .fp16
  | 2 => some .i8
  | 3 => some .u8
  | 4 => some .i16
  | 5 => some .u16
  | 6 => some .i32
  | 7 => some .u32
  | _ => none

theorem np_dtype_ufw_dtype {d : DType} {t : Nat} (h : ufw_dtype d = some t) :
    np_dtype t = some d := by
  cases d <;> simp only [ufw_dtype, Option.some.injEq, reduceCtorEq] at h <;>
    first
    | exact absurd h (by simp)
    | (subst h; rfl)

/-- A numpy `ndarray`: dtype, shape, and the flattened element list (C order).
The well-formedness condition `data.length = shape.prod` is carried as a
hypothesis where needed. -/
structure NDArray where
  dtype : DType
  shape : List Nat
  data : List Int
  deriving DecidableEq, Repr

/-- `astype(np.float32)` on data of a registered floating dtype
(`float32`/`float16`): value-exact, modelled as the identity on tokens. -/
def castF32 (v : Int) : Int := v

/-- `astype(np.int32)`: C-style wrap into the signed 32-bit range. -/
def castI32 (v : Int) : Int := (v + 2 ^ 31) % 2 ^ 32 - 2 ^ 31

/-- The element range of each dtype: integer dtypes hold their two's-complement
value range, `float16` tokens are 16-bit machine patterns.  `float32`/`float64`
elements are abstract value tokens without a range constraint (their payloads
never pass through the raw-byte path in the source). -/
def inRange : DType → Int → Prop
  | .i8, v => -(2 ^ 7) ≤ v ∧ v < 2 ^ 7
  | .u8, v => 0 ≤ v ∧ v < 2 ^ 8
  | .i16, v => -(2 ^ 15) ≤ v ∧ v < 2 ^ 15
  | .u16, v => 0 ≤ v ∧ v < 2 ^ 16
  | .i32, v => -(2 ^ 31) ≤ v ∧ v < 2 ^ 31
  | .u32, v => 0 ≤ v ∧ v < 2 ^ 32
  | .fp16, v => 0 ≤ v ∧ v < 2 ^ 16
  | .i64, v => -(2 ^ 63) ≤ v ∧ v < 2 ^ 63
  | _, _ => True

instance (d : DType) (v : Int) : Decidable (inRange d v) := by
  cases d <;> simp [inRange] <;> infer_instance

/-- Whether the dtype is in the floating tuple of `array_to_blobproto`
(`np.float32, np.float16, np.float64`). -/
def DType.isFloatKind : DType → Bool
  | .fp32 => true
  | .fp16 => true
  | .f64 => true
  | _ => false

/-- Whether the dtype is in the integer tuple of `array_to_blobproto`. -/
def DType.isIntKind : DType → Bool
  | .u32 => true
  | .i32 => true
  | .i8 => true
  | .u8 => true
  | .i16 => true
  | .u16 => true
  | _ => false

/-- Python exceptions distinguished by the model. -/
inductive PyErr where
  /-- `KeyError` of the dtype registry or the explicit
  `"unsupported numpy dtype"` exception (spec: `UnsupportedDtype`). -/
  | unsupportedDtype
  /-- numpy `ValueError` from `reshape`/`view` (spec: `ShapeMismatch`). -/
  | valueError
  /-- The explicit `"Expected a scalar"` exception in `blob_to_array`. -/
  | scalarExpected
  /-- Python `IndexError` (out-of-range list subscript). -/
  | indexError
  /-- Failed `assert` statement. -/
  | assertionError
  deriving DecidableEq, Repr

/-- A `BlobProto` message.  `shape_dim` is `blob.shape.dim`; the four legacy
fields are optional (`HasField`); `data` is the repeated float payload and
`int32_data` the repeated int32 payload; `diff` is the gradient payload. -/
structure BlobProto where
  shape_dim : List Nat := []
  num : Option Nat := none
  channels : Option Nat := none
  height : Option Nat := none
  width : Option Nat := none
  dtype : Nat := 0
  data : List Int := []
  int32_data : List Int := []
  diff : List Int := []
  deriving DecidableEq, Repr

/-- `array_to_blobproto`: stores the shape, looks the dtype up in the registry
(`KeyError`, modelled `unsupportedDtype`, if unregistered), then stores the
payload cast to float32 for floating dtypes or to int32 for integer dtypes.
The final explicit raise is kept although no dtype reaches it (every dict
member is in one of the two tuples, and non-members fail the lookup first).
A raise discards the partially built local message. -/
def array_to_blobproto (arr : NDArray) : Except PyErr BlobProto :=
  match ufw_dtype arr.dtype with
  | none => .error .unsupportedDtype
  | some tag =>
    if arr.dtype.isFloatKind then
      .ok { shape_dim := arr.shape, dtype := tag, data := arr.data.map castF32 }
    else if arr.dtype.isIntKind then
      .ok { shape_dim := arr.shape, dtype := tag, int32_data := arr.data.map castI32 }
    else
      .error .unsupportedDtype

/-- `blobproto_to_array`: reads the float payload (`blob.data`, or `blob.diff`
when `return_diff`) and reshapes it, using the legacy 4-D shape whenever any of
the four legacy fields is present.  `np.array` over the repeated float field
yields a `float64` array; `reshape` raises `ValueError` unless the element
count matches the target shape's product. -/
def blobproto_to_array (blob : BlobProto) (return_diff : Bool := false) :
    Except PyErr NDArray :=
  let data := if return_diff then blob.diff else blob.data
  if blob.num.isSome || blob.channels.isSome || blob.height.isSome || blob.width.isSome then
    let sh := [blob.num.getD 0, blob.channels.getD 0, blob.height.getD 0, blob.width.getD 0]
    if data.length = sh.prod then .ok ⟨.f64, sh, data⟩ else .error .valueError
  else
    if data.length = blob.shape_dim.prod then .ok ⟨.f64, blob.shape_dim, data⟩
    else .error .valueError

/-- The element-wise encoding loop of `arraylist_to_blobprotovector_str`
(the list comprehension `[array_to_blobproto(arr) for arr in arraylist]`):
fails as a whole on the first failing element. -/
def encBlobList : List NDArray → Except PyErr (List BlobProto)
  | [] => .ok []
  | a :: rest => do
    let b ← array_to_blobproto a
    let bs ← encBlobList rest
    .ok (b :: bs)

/-- `arraylist_to_blobprotovector_str`: encodes each array and serializes the
vector.  Serialization is modelled as the identity on the message list. -/
def arraylist_to_blobprotovector_str (arraylist : List NDArray) :
    Except PyErr (List BlobProto) :=
  encBlobList arraylist

/-- The element-wise decoding loop of `blobprotovector_str_to_arraylist`. -/
def decBlobList : List BlobProto → Except PyErr (List NDArray)
  | [] => .ok []
  | b :: rest => do
    let a ← blobproto_to_array b
    let as ← decBlobList rest
    .ok (a :: as)

/-- `blobprotovector_str_to_arraylist`: parses the serialized vector (identity
on well-formed input in the model) and decodes each blob in order. -/
def blobprotovector_str_to_arraylist (v : List BlobProto) :
    Except PyErr (List NDArray) :=
  decBlobList v

/-! ### Raw-byte serialization (`arr.view(np.uint8).tostring()` and
`np.fromstring(..., dtype=np.uint8).view(...)`) -/

/-- Little-endian bytes of the machine representation `n`, `w` bytes wide. -/
def toBytesAux : Nat → Nat → List Nat
  | 0, _ => []
  | w + 1, n => n % 256 :: toBytesAux w (n / 256)

/-- Reassemble a little-endian byte list into a machine word. -/
def fromBytes : List Nat → Nat
  | [] => 0
  | b :: bs => b + 256 * fromBytes bs

/-- The machine representation of element `v` of dtype `d`: its value reduced
into `[0, 256^itemsize)` (two's complement for the signed dtypes; `float16`
tokens already are machine patterns). -/
def patOf (d : DType) (v : Int) : Nat :=
  (v % ((256 : Int) ^ d.itemsize)).toNat

/-- Reinterpret a machine word of dtype `d` as an element (`.view` semantics):
signed dtypes read two's complement, everything else is taken unsigned. -/
def decodeVal (d : DType) (p : Nat) : Int :=
  if d.signed ∧ 2 ^ (8 * d.itemsize - 1) ≤ p then (p : Int) - (256 : Int) ^ d.itemsize
  else (p : Int)

/-- `arr.view(np.uint8).tostring()`: concatenated little-endian bytes of the
elements. -/
def bytesOfVals (d : DType) : List Int → List Nat
  | [] => []
  | v :: vs => toBytesAux d.itemsize (patOf d v) ++ bytesOfVals d vs

/-- Fuel-indexed splitting of a byte list into `w`-byte groups (the element
boundaries of `.view(dtype)` on a byte array). -/
def chunksF : Nat → Nat → List Nat → List (List Nat)
  | 0, _, _ => []
  | _ + 1, _, [] => []
  | f + 1, w, l => l.take w :: chunksF f w (l.drop w)

/-- Split a byte list into `w`-byte groups. -/
def chunks (w : Nat) (l : List Nat) : List (List Nat) :=
  chunksF l.length w l

/-- A `Datum` message.  `shape` is present (`HasField('shape')`) only when the
dimension list was actually modified — `extend` with an empty shape leaves the
field absent.  `channels`/`height`/`width` are proto scalar fields with
default 0; `data` is the raw byte payload, `float_data` the repeated float
payload. -/
structure Datum where
  shape : Option (List Nat) := none
  channels : Nat := 0
  height : Nat := 0
  width : Nat := 0
  label : Option Int := none
  dtype : Nat := 0
  data : List Nat := []
  float_data : List Int := []
  deriving DecidableEq, Repr

/-- `array_to_datum`: stores the shape (the proto field stays absent for a 0-d
array), the payload (`float_data` for `float32`, raw bytes otherwise), the
dtype tag (`KeyError`, modelled `unsupportedDtype`, if unregistered — the
partially built message is discarded), and the label when provided. -/
def array_to_datum (arr : NDArray) (label : Option Int := none) :
    Except PyErr Datum :=
  match ufw_dtype arr.dtype with
  | none => .error .unsupportedDtype
  | some tag =>
    .ok { shape := if arr.shape = [] then none else some arr.shape
          label := label
          dtype := tag
          data := if arr.dtype = .fp32 then [] else bytesOfVals arr.dtype arr.data
          float_data := if arr.dtype = .fp32 then arr.data else [] }

/-- `datum_to_array`: resolves the shape from the stored dimensions, falling
back to `[channels, height, width]` when the `shape` field is absent; a
nonempty raw byte payload is reinterpreted via the stored dtype tag
(`KeyError` if unrecognized; `ValueError` if the byte count is not a multiple
of the itemsize), otherwise the float payload is read as `float32`.  `reshape`
raises `ValueError` unless the element count matches the shape product. -/
def datum_to_array (datum : Datum) : Except PyErr NDArray :=
  let shape := match datum.shape with
    | some s => s
    | none => [datum.channels, datum.height, datum.width]
  if datum.data.length ≠ 0 then
    match np_dtype datum.dtype with
    | none => .error .unsupportedDtype
    | some d =>
      if datum.data.length % d.itemsize = 0 then
        let vals := (chunks d.itemsize datum.data).map (fun bs => decodeVal d (fromBytes bs))
        if vals.length = shape.prod then .ok ⟨d, shape, vals⟩ else .error .valueError
      else .error .valueError
  else
    if datum.float_data.length = shape.prod then
      .ok ⟨.fp32, shape, datum.float_data.map castF32⟩
    else .error .valueError

/-! ### `blob_to_array` (the float32/int32-only decoder) -/

/-- The possible results of `blob_to_array`: the raw repeated payload returned
in the scalar case, a decoded array, or Python `None` (the fall-through when
no branch returns). -/
inductive BlobArr where
  | raw (payload : List Int)
  | arr (a : NDArray)
  | noneRes
  deriving DecidableEq, Repr

/-- The inner `toArray` closure of `blob_to_array`.  `cast` is the
`astype(dtype)` conversion applied in the reshape branch only. -/
def toArrayB (shape : List Nat) (data : List Int) (d : DType) (cast : Int → Int) :
    Except PyErr BlobArr :=
  if shape = [] ∧ data.length = 1 then .ok (.raw data)
  else if shape = [] ∧ 1 < data.length then .error .scalarExpected
  else if 0 < data.length then
    if data.length = shape.prod then .ok (.arr ⟨d, shape, data.map cast⟩)
    else .error .valueError
  else .ok .noneRes

/-- `blob_to_array` (message branch; the file-path branch that parses a file's
bytes is not modelled): decodes the float payload if populated, else the int32
payload, else returns `None`. -/
def blob_to_array (blob : BlobProto) : Except PyErr BlobArr :=
  if 0 < blob.data.length then toArrayB blob.shape_dim blob.data .fp32 castF32
  else if 0 < blob.int32_data.length then
    toArrayB blob.shape_dim blob.int32_data .i32 castI32
  else .ok .noneRes

/-- The arrays whose datum encoding decodes back to the original: registered
dtype, well-formed flat data, a nonempty shape (a 0-d array loses its shape
field), a nonzero element count unless the dtype is `float32` (an empty raw
byte payload reroutes decoding to the float branch), and elements within the
dtype's machine range. -/
def GoodArr (a : NDArray) : Prop :=
  (ufw_dtype a.dtype).isSome = true ∧
  a.data.length = a.shape.prod ∧
  a.shape ≠ [] ∧
  (0 < a.data.length ∨ a.dtype = .fp32) ∧
  ∀ v ∈ a.data, inRange a.dtype v

instance (a : NDArray) : Decidable (GoodArr a) := by
  unfold GoodArr; infer_instance

/-! ### Round-trip lemmas for the raw-byte path -/

theorem DType.itemsize_pos (d : DType) : 0 < d.itemsize := by
  cases d <;> decide

theorem toBytesAux_length (w n : Nat) : (toBytesAux w n).length = w := by
  induction w generalizing n with
  | zero => rfl
  | succ w ih => simp [toBytesAux, ih]

theorem fromBytes_toBytesAux (w n : Nat) :
    fromBytes (toBytesAux w n) = n % 256 ^ w := by
  induction w generalizing n with
  | zero => simp [toBytesAux, fromBytes, Nat.mod_one]
  | succ w ih =>
    simp only [toBytesAux, fromBytes, ih]
    have h1 : n % 256 ^ (w + 1) % 256 = n % 256 :=
      Nat.mod_mod_of_dvd n ⟨256 ^ w, by rw [pow_succ]; ring⟩
    have h2 : n % 256 ^ (w + 1) / 256 = n / 256 % 256 ^ w := by
      rw [pow_succ']; exact Nat.mod_mul_right_div_self n 256 (256 ^ w)
    have h3 := Nat.div_add_mod (n % 256 ^ (w + 1)) 256
    omega

theorem decodeVal_patOf {d : DType} {v : Int} (h : inRange d v)
    (h1 : d ≠ .fp32) (h2 : d ≠ .f64) :
    decodeVal d (patOf d v) = v := by
  cases d
  case fp32 => exact absurd rfl h1
  case f64 => exact absurd rfl h2
  all_goals
    simp only [inRange] at h
    simp only [decodeVal, patOf, DType.itemsize, DType.signed]
    norm_num
    first
    | (split <;> omega)
    | omega

theorem bytesOfVals_length (d : DType) (l : List Int) :
    (bytesOfVals d l).length = l.length * d.itemsize := by
  induction l with
  | nil => simp [bytesOfVals]
  | cons v vs ih =>
    simp [bytesOfVals, ih, toBytesAux_length]
    ring

theorem chunksF_bytesOfVals (d : DType) (l : List Int) :
    ∀ fuel, (bytesOfVals d l).length ≤ fuel →
      chunksF fuel d.itemsize (bytesOfVals d l) =
        l.map (fun v => toBytesAux d.itemsize (patOf d v)) := by
  induction l with
  | nil =>
    intro fuel _
    cases fuel <;> rfl
  | cons v vs ih =>
    intro fuel hfuel
    have hw := d.itemsize_pos
    have hblock : (toBytesAux d.itemsize (patOf d v)).length = d.itemsize :=
      toBytesAux_length _ _
    obtain ⟨b, bt, hb⟩ : ∃ b bt, toBytesAux d.itemsize (patOf d v) = b :: bt := by
      cases hbv : toBytesAux d.itemsize (patOf d v) with
      | nil => rw [hbv] at hblock; simp at hblock; omega
      | cons b bt => exact ⟨b, bt, rfl⟩
    have hlen : (bytesOfVals d (v :: vs)).length =
        d.itemsize + (bytesOfVals d vs).length := by
      simp [bytesOfVals, hblock]
    obtain ⟨f, rfl⟩ : ∃ f, fuel = f + 1 := by
      cases fuel with
      | zero => omega
      | succ f => exact ⟨f, rfl⟩
    show chunksF (f + 1) d.itemsize
        (toBytesAux d.itemsize (patOf d v) ++ bytesOfVals d vs) = _
    rw [hb]
    show (b :: bt ++ bytesOfVals d vs).take d.itemsize ::
        chunksF f d.itemsize ((b :: bt ++ bytesOfVals d vs).drop d.itemsize) = _
    rw [← hb]
    rw [List.take_left' hblock, List.drop_left' hblock]
    rw [ih f (by omega)]
    simp

/-- Core raw-path round trip: decoding the byte payload of a well-formed array
recovers the element list. -/
theorem decode_bytesOfVals {d : DType} {l : List Int}
    (h : ∀ v ∈ l, inRange d v) (h1 : d ≠ .fp32) (h2 : d ≠ .f64) :
    (chunks d.itemsize (bytesOfVals d l)).map
      (fun bs => decodeVal d (fromBytes bs)) = l := by
  unfold chunks
  rw [chunksF_bytesOfVals d l _ le_rfl, List.map_map]
  have : ∀ v ∈ l,
      ((fun bs => decodeVal d (fromBytes bs)) ∘
        fun v => toBytesAux d.itemsize (patOf d v)) v = id v := by
    intro v hv
    have hp : patOf d v < 256 ^ d.itemsize := by
      unfold patOf
      have h0 := Int.emod_nonneg v
        (b := (256 : Int) ^ d.itemsize) (by positivity)
      have hlt := Int.emod_lt_of_pos v
        (b := (256 : Int) ^ d.itemsize) (by positivity)
      set r := v % ((256 : Int) ^ d.itemsize) with hr
      have hcast : ((256 : Int) ^ d.itemsize) = ((256 ^ d.itemsize : Nat) : Int) := by
        push_cast; ring
      rw [hcast] at hlt
      omega

    simp only [Function.comp_apply, fromBytes_toBytesAux, Nat.mod_eq_of_lt hp, id]
    exact decodeVal_patOf (h v hv) h1 h2
  rw [List.map_congr_left this, List.map_id]

/-- Datum round trip for arrays in the good domain: encoding then decoding
recovers the array, and the label is carried through. -/
theorem datum_roundtrip_of_goodArr (a : NDArray) (lb : Option Int)
    (hg : GoodArr a) :
    ∃ dm, array_to_datum a lb = .ok dm ∧ dm.label = lb ∧
      datum_to_array dm = .ok a := by
  obtain ⟨dt, sh, data⟩ := a
  obtain ⟨hreg, hlen, hsh, hpos, hrange⟩ := hg
  obtain ⟨tag, htag⟩ := Option.isSome_iff_exists.mp hreg
  simp only at hreg hlen hsh hpos hrange htag
  have hnpd : np_dtype tag = some dt := np_dtype_ufw_dtype htag
  refine ⟨_, by rw [array_to_datum, htag], rfl, ?_⟩
  have hshape : (if sh = [] then none else some sh) = some sh := if_neg hsh
  by_cases hfp : dt = .fp32
  · subst hfp
    simp [datum_to_array, hshape, hlen, castF32]
    exact List.map_id _
  · have hne64 : dt ≠ .f64 := fun he => by
      rw [he] at htag; exact absurd htag (by simp [ufw_dtype])
    have hnz : 0 < data.length := hpos.resolve_right hfp
    have hblen : (bytesOfVals dt data).length = data.length * dt.itemsize :=
      bytesOfVals_length _ _
    have hw := dt.itemsize_pos
    have hbnz : (bytesOfVals dt data).length ≠ 0 := by
      have := Nat.mul_pos hnz hw
      omega
    have hmod : (bytesOfVals dt data).length % dt.itemsize = 0 := by
      rw [hblen]; exact Nat.mul_mod_left _ _
    have hdec := decode_bytesOfVals (d := dt) (l := data) hrange hfp hne64
    simp only [datum_to_array, hshape, if_neg hfp, hnpd]
    rw [if_pos hbnz]
    simp only [hmod, if_pos rfl, hdec]
    simp [hlen]

/-! ### LMDB key formatting (`DB_KEY_FORMAT = "{:0>10d}__{:1}"`) and the
byte-wise key order of the store (memcmp). -/

/-- Decimal digits of `n`, least significant first (`[]` for `0`); the fuel is
an upper bound on the digit count (`n` itself suffices). -/
def decDigitsAux : Nat → Nat → List Nat
  | 0, _ => []
  | _ + 1, 0 => []
  | f + 1, n => n % 10 :: decDigitsAux f (n / 10)

/-- Recombine least-significant-first decimal digits. -/
def lsdVal : List Nat → Nat
  | [] => 0
  | d :: ds => d + 10 * lsdVal ds

/-- The ASCII bytes of `"{:d}".format(n)` (most significant digit first;
`"0"` for zero is produced by the padding below since its digit list is
empty and numerically equivalent). -/
def decBytes (n : Nat) : List Nat :=
  ((decDigitsAux n n).reverse).map (fun d => d + 48)

/-- `"{:0>10d}".format(n)`: the decimal digits left-padded with `'0'` to
width 10. -/
def pad10 (n : Nat) : List Nat :=
  List.replicate (10 - (decBytes n).length) 48 ++ decBytes n

/-- `"{:1}".format(suffix)`: a `str` of width at least 1, left-aligned — the
empty suffix comes out as a single space. -/
def fmtSuffix (s : List Nat) : List Nat :=
  if s = [] then [32] else s

/-- `DB_KEY_FORMAT.format(index, suffix)` followed by `.encode()`: the byte
string `<10-digit zero-padded index>__<width-1 formatted suffix>`
(95 = `'_'`). -/
def dbKey (n : Nat) (suffix : List Nat) : List Nat :=
  pad10 n ++ [95, 95] ++ fmtSuffix suffix

/-- Byte-string comparison as the store orders keys (memcmp: first differing
byte decides; a strict initial segment sorts first). -/
def bytesLt : List Nat → List Nat → Bool
  | _, [] => false
  | [], _ :: _ => true
  | a :: as, b :: bs => if a < b then true else if b < a then false else bytesLt as bs

theorem bytesLt_irrefl (l : List Nat) : bytesLt l l = false := by
  induction l with
  | nil => rfl
  | cons a as ih => simp [bytesLt, ih]

theorem bytesLt_asymm {l r : List Nat} (h : bytesLt l r = true) :
    bytesLt r l = false := by
  induction l generalizing r with
  | nil =>
    cases r with
    | nil => exact absurd h (by simp [bytesLt])
    | cons b bs => rfl
  | cons a as ih =>
    cases r with
    | nil => exact absurd h (by simp [bytesLt])
    | cons b bs =>
      simp only [bytesLt] at h ⊢
      rcases Nat.lt_trichotomy a b with hab | hab | hab
      · rw [if_neg (Nat.not_lt.mpr hab.le), if_pos hab]
      · subst hab
        simp only [Nat.lt_irrefl, if_false] at h ⊢
        exact ih h
      · rw [if_neg (Nat.not_lt.mpr hab.le), if_pos hab] at h
        exact absurd h (by simp)

/-- Most-significant-first digit recombination (the numeric value of a padded
decimal byte string, after subtracting the ASCII offset). -/
def msdVal (l : List Nat) : Nat :=
  l.foldl (fun a d => a * 10 + d) 0

theorem msdVal_foldl (l : List Nat) (a : Nat) :
    l.foldl (fun x d => x * 10 + d) a = a * 10 ^ l.length + msdVal l := by
  induction l generalizing a with
  | nil => simp [msdVal]
  | cons d ds ih =>
    show List.foldl (fun x k => x * 10 + k) (a * 10 + d) ds =
      a * 10 ^ (ds.length + 1) + List.foldl (fun x k => x * 10 + k) (0 * 10 + d) ds
    rw [ih (a * 10 + d), ih (0 * 10 + d)]
    show _ = a * 10 ^ (ds.length + 1) + ((0 * 10 + d) * 10 ^ ds.length + msdVal ds)
    ring

theorem msdVal_cons (d : Nat) (ds : List Nat) :
    msdVal (d :: ds) = d * 10 ^ ds.length + msdVal ds := by
  show List.foldl (fun x k => x * 10 + k) (0 * 10 + d) ds = _
  rw [msdVal_foldl]
  norm_num

theorem msdVal_lt (l : List Nat) (h : ∀ d ∈ l, d < 10) :
    msdVal l < 10 ^ l.length := by
  induction l with
  | nil => simp [msdVal]
  | cons d ds ih =>
    have hd : d < 10 := h d (by simp)
    have hds := ih (fun x hx => h x (by simp [hx]))
    rw [msdVal_cons]
    simp only [List.length_cons, pow_succ]
    have h1 : d * 10 ^ ds.length + msdVal ds < (d + 1) * 10 ^ ds.length := by
      simp only [Nat.add_mul, Nat.one_mul]
      omega
    have h2 : (d + 1) * 10 ^ ds.length ≤ 10 * 10 ^ ds.length :=
      Nat.mul_le_mul_right _ hd
    calc d * 10 ^ ds.length + msdVal ds < (d + 1) * 10 ^ ds.length := h1
      _ ≤ 10 * 10 ^ ds.length := h2
      _ = 10 ^ ds.length * 10 := Nat.mul_comm _ _

/-- On equal-length digit strings, numeric order implies byte order. -/
theorem bytesLt_of_msdVal_lt (l r : List Nat) (hlen : l.length = r.length)
    (hl : ∀ d ∈ l, d < 10) (hr : ∀ d ∈ r, d < 10)
    (h : msdVal l < msdVal r) : bytesLt l r = true := by
  induction l generalizing r with
  | nil =>
    cases r with
    | nil => simp [msdVal] at h
    | cons b bs => simp at hlen
  | cons a as ih =>
    cases r with
    | nil => simp at hlen
    | cons b bs =>
      simp only [List.length_cons, Nat.succ.injEq] at hlen
      rw [msdVal_cons, msdVal_cons] at h
      rcases Nat.lt_trichotomy a b with hab | hab | hab
      · simp [bytesLt, hab]
      · subst hab
        simp only [bytesLt, Nat.lt_irrefl, if_false]
        apply ih bs hlen (fun d hd => hl d (by simp [hd]))
          (fun d hd => hr d (by simp [hd]))
        rw [hlen] at h
        omega
      · exfalso
        have hbnd := msdVal_lt bs (fun d hd => hr d (by simp [hd]))
        have habnd := msdVal_lt as (fun d hd => hl d (by simp [hd]))
        rw [hlen] at h habnd
        have hge : (b + 1) * 10 ^ bs.length ≤ a * 10 ^ bs.length :=
          Nat.mul_le_mul_right _ hab
        simp only [Nat.add_mul, Nat.one_mul] at hge
        omega

theorem lsdVal_decDigitsAux : ∀ f n, n ≤ f → lsdVal (decDigitsAux f n) = n := by
  intro f
  induction f with
  | zero => intro n hn; interval_cases n; rfl
  | succ f ih =>
    intro n hn
    cases n with
    | zero => rfl
    | succ m =>
      show lsdVal ((m + 1) % 10 :: decDigitsAux f ((m + 1) / 10)) = m + 1
      have hdiv : (m + 1) / 10 ≤ f := by
        have := Nat.div_lt_self (Nat.succ_pos m) (by norm_num : 1 < 10)
        omega
      simp only [lsdVal, ih _ hdiv]
      omega

theorem decDigitsAux_lt : ∀ f n d, d ∈ decDigitsAux f n → d < 10 := by
  intro f
  induction f with
  | zero => intro n d hd; simp [decDigitsAux] at hd
  | succ f ih =>
    intro n d hd
    cases n with
    | zero => simp [decDigitsAux] at hd
    | succ m =>
      rw [show decDigitsAux (f + 1) (m + 1)
          = (m + 1) % 10 :: decDigitsAux f ((m + 1) / 10) from rfl] at hd
      rcases List.mem_cons.mp hd with h | h
      · subst h; exact Nat.mod_lt _ (by norm_num)
      · exact ih _ _ h

theorem decDigitsAux_length_le : ∀ f n k, n ≤ f → n < 10 ^ k →
    (decDigitsAux f n).length ≤ k := by
  intro f
  induction f with
  | zero => intro n k h1 h2; interval_cases n; simp [decDigitsAux]
  | succ f ih =>
    intro n k h1 h2
    cases n with
    | zero => simp [decDigitsAux]
    | succ m =>
      cases k with
      | zero => simp at h2
      | succ k =>
        show ((m + 1) % 10 :: decDigitsAux f ((m + 1) / 10)).length ≤ k + 1
        simp only [List.length_cons, Nat.add_le_add_iff_right]
        apply ih
        · have := Nat.div_lt_self (Nat.succ_pos m) (by norm_num : 1 < 10)
          omega
        · rw [pow_succ] at h2
          exact Nat.div_lt_of_lt_mul (by omega)

theorem msdVal_append_singleton (l : List Nat) (d : Nat) :
    msdVal (l ++ [d]) = msdVal l * 10 + d := by
  unfold msdVal
  rw [List.foldl_append]
  rfl

theorem msdVal_reverse_lsdVal (l : List Nat) :
    msdVal l.reverse = lsdVal l := by
  induction l with
  | nil => rfl
  | cons d ds ih =>
    simp only [List.reverse_cons, msdVal_append_singleton, ih, lsdVal]
    ring

theorem msdVal_replicate_zero_append (k : Nat) (l : List Nat) :
    msdVal (List.replicate k 0 ++ l) = msdVal l := by
  induction k with
  | zero => rfl
  | succ k ih =>
    show msdVal (0 :: (List.replicate k 0 ++ l)) = msdVal l
    rw [msdVal_cons, ih]
    simp

/-- `pad10` in terms of a pure digit string: the padded digits of `n`. -/
def digitsPad10 (n : Nat) : List Nat :=
  List.replicate (10 - (decDigitsAux n n).length) 0 ++ (decDigitsAux n n).reverse

theorem pad10_eq_map (n : Nat) :
    pad10 n = (digitsPad10 n).map (fun d => d + 48) := by
  unfold pad10 digitsPad10 decBytes
  rw [List.map_append, List.map_replicate, List.length_map]
  simp [List.length_reverse]

theorem digitsPad10_lt (n : Nat) : ∀ d ∈ digitsPad10 n, d < 10 := by
  intro d hd
  rcases List.mem_append.mp hd with h | h
  · rw [List.eq_of_mem_replicate h]; norm_num
  · exact decDigitsAux_lt _ _ _ (List.mem_reverse.mp h)

theorem digitsPad10_msdVal (n : Nat) : msdVal (digitsPad10 n) = n := by
  unfold digitsPad10
  rw [msdVal_replicate_zero_append, msdVal_reverse_lsdVal,
    lsdVal_decDigitsAux n n le_rfl]

theorem digitsPad10_length (n : Nat) (h : n < 10 ^ 10) :
    (digitsPad10 n).length = 10 := by
  unfold digitsPad10
  have := decDigitsAux_length_le n n 10 le_rfl h
  simp only [List.length_append, List.length_replicate, List.length_reverse]
  omega

theorem bytesLt_map_add (c : Nat) (l r : List Nat) :
    bytesLt (l.map (fun d => d + c)) (r.map (fun d => d + c)) = bytesLt l r := by
  induction l generalizing r with
  | nil => cases r <;> simp [bytesLt]
  | cons a as ih =>
    cases r with
    | nil => simp [bytesLt]
    | cons b bs =>
      simp only [List.map_cons, bytesLt]
      rcases Nat.lt_trichotomy a b with hab | hab | hab
      · rw [if_pos (by omega), if_pos hab]
      · subst hab
        simp only [Nat.lt_irrefl, if_false]
        exact ih bs
      · rw [if_neg (show ¬ a + c < b + c by omega),
          if_pos (show b + c < a + c by omega),
          if_neg (Nat.not_lt.mpr hab.le), if_pos hab]

theorem pad10_mono {m n : Nat} (hmn : m < n) (hn : n < 10 ^ 10) :
    bytesLt (pad10 m) (pad10 n) = true := by
  rw [pad10_eq_map, pad10_eq_map, bytesLt_map_add]
  apply bytesLt_of_msdVal_lt
  · rw [digitsPad10_length m (lt_trans hmn hn), digitsPad10_length n hn]
  · exact digitsPad10_lt m
  · exact digitsPad10_lt n
  · rw [digitsPad10_msdVal, digitsPad10_msdVal]; exact hmn

/-- A strict byte-order difference between equal-length strings is preserved
by appending arbitrary suffixes. -/
theorem bytesLt_append {l r : List Nat} (hlen : l.length = r.length)
    (h : bytesLt l r = true) (s t : List Nat) :
    bytesLt (l ++ s) (r ++ t) = true := by
  induction l generalizing r with
  | nil =>
    cases r with
    | nil => exact absurd h (by simp [bytesLt])
    | cons b bs => simp at hlen
  | cons a as ih =>
    cases r with
    | nil => simp at hlen
    | cons b bs =>
      simp only [List.length_cons, Nat.succ.injEq] at hlen
      simp only [List.cons_append, bytesLt] at h ⊢
      rcases Nat.lt_trichotomy a b with hab | hab | hab
      · rw [if_pos hab]
      · subst hab
        simp only [Nat.lt_irrefl, if_false] at h ⊢
        exact ih hlen h
      · rw [if_neg (Nat.not_lt.mpr hab.le), if_pos hab] at h
        exact absurd h (by simp)

/-- Writer keys are strictly increasing in the index: the padded decimal is
order-preserving below `10^10`, whatever the suffixes. -/
theorem dbKey_mono {m n : Nat} (hmn : m < n) (hn : n < 10 ^ 10)
    (s t : List Nat) : bytesLt (dbKey m s) (dbKey n t) = true := by
  unfold dbKey
  rw [List.append_assoc, List.append_assoc]
  apply bytesLt_append (s := [95, 95] ++ fmtSuffix s) (t := [95, 95] ++ fmtSuffix t)
  · rw [pad10_eq_map, pad10_eq_map, List.length_map, List.length_map,
      digitsPad10_length m (lt_trans hmn hn), digitsPad10_length n hn]
  · exact pad10_mono hmn hn

/-! ### The LMDB store and transaction model

The store is modelled abstractly, as the spec's "embedded transactional
key-value store": `committed` is the durable content in key order, `pending`
the writes of the one in-flight write transaction, `capacity` the configured
map size, counted in records (one unit of storage per record), and `buffer`
the writer's in-memory batch (`zip(key_list, value_list)`).  A `put` with
`append=True` compares the new key against the last key visible to the
transaction and refuses (returns `False`, without writing) keys that are not
strictly greater; a write that does not fit the capacity raises
`MapFullError`. -/

/-- State of one open LMDB environment plus the writer's buffer. -/
structure DbState (V : Type) where
  committed : List (List Nat × V)
  pending : List (List Nat × V)
  capacity : Nat
  buffer : List (List Nat × V)
  deriving DecidableEq

namespace DbState

variable {V : Type}

/-- The last key visible inside the write transaction (committed data plus the
transaction's own appends). -/
def lastKey (s : DbState V) : Option (List Nat) :=
  ((s.committed ++ s.pending).map Prod.fst).getLast?

/-- Whether `append=True` accepts key `k`: it must be strictly greater than
every key already present. -/
def okKey (s : DbState V) (k : List Nat) : Bool :=
  match s.lastKey with
  | none => true
  | some m => bytesLt m k

/-- `txn.commit()` followed by `self.txn = self.db.begin(write=True)` and the
clearing of the two buffer lists. -/
def commitSt (s : DbState V) : DbState V :=
  { s with committed := s.committed ++ s.pending, pending := [], buffer := [] }

end DbState

/-- `LMDB_Dataset._put`: one `txn.put(key, value, append=True)`.  An
out-of-order key makes `put` return `False` without writing, which `_put`
ignores (`success` is still set).  A `MapFullError` aborts the transaction
(discarding `pending`), doubles the map size, opens a fresh transaction, and
makes `_put` return `False`. -/
def lmdbPut {V : Type} (s : DbState V) (k : List Nat) (v : V) : DbState V × Bool :=
  if s.okKey k then
    if s.committed.length + s.pending.length + 1 ≤ s.capacity then
      ({ s with pending := s.pending ++ [(k, v)] }, true)
    else
      ({ s with pending := [], capacity := s.capacity * 2 }, false)
  else (s, true)

/-- The loop body of `LMDB_Dataset._put_batch`: iterate the snapshot of
`zip(key_list, value_list)` taken at loop entry; on a failed `_put`, recurse
into `_put_batch` (which re-reads the current, still uncleared, buffer) and
then continue the interrupted iteration; at the end commit, reopen a
transaction and clear the buffer.  `fuel` bounds the recursion depth and is
consumed one unit per processed record. -/
def flushAux {V : Type} : Nat → List (List Nat × V) → DbState V → Option (DbState V)
  | 0, _, _ => none
  | _ + 1, [], s => some s.commitSt
  | f + 1, (k, v) :: rest, s =>
    match lmdbPut s k v with
    | (s1, true) => flushAux f rest s1
    | (s1, false) =>
      match (if s1.buffer.isEmpty then some s1 else flushAux f s1.buffer s1) with
      | none => none
      | some s2 => flushAux f rest s2

/-- `LMDB_Dataset._put_batch`: returns immediately on an empty buffer,
otherwise runs the write loop over the buffered pairs. -/
def putBatchDb {V : Type} (fuel : Nat) (s : DbState V) : Option (DbState V) :=
  if s.buffer.isEmpty then some s else flushAux fuel s.buffer s

theorem getLast?_mem_self {α : Type} {l : List α} {a : α}
    (h : l.getLast? = some a) : a ∈ l := by
  obtain ⟨hne, he⟩ := List.mem_getLast?_eq_getLast (l := l) (x := a)
    (Option.mem_def.mpr h)
  rw [he]
  exact List.getLast_mem hne

theorem pairwise_getLast? {α : Type} {R : α → α → Prop} :
    ∀ {l : List α}, l.Pairwise R → ∀ {m : α}, l.getLast? = some m →
      ∀ x ∈ l, x = m ∨ R x m := by
  intro l
  induction l with
  | nil => intro _ m hm; simp at hm
  | cons a t ih =>
    intro hp m hm x hx
    rcases eq_or_ne t [] with ht | ht
    · subst ht
      simp only [List.getLast?_singleton, Option.some.injEq] at hm
      rcases List.mem_singleton.mp hx with rfl
      exact Or.inl hm
    · have hm' : t.getLast? = some m := by
        rw [show a :: t = [a] ++ t from rfl, List.getLast?_append_of_ne_nil _ ht] at hm
        exact hm
      rcases List.mem_cons.mp hx with rfl | hxt
      · exact Or.inr ((List.pairwise_cons.mp hp).1 m (getLast?_mem_self hm'))
      · exact ih (List.pairwise_cons.mp hp).2 hm' x hxt

/-- Fuel monotonicity of the flush loop: a successful run stays successful
with more fuel. -/
theorem flushAux_mono {V : Type} :
    ∀ (f : Nat) {g : Nat} {rest : List (List Nat × V)} {s t : DbState V},
      f ≤ g → flushAux f rest s = some t → flushAux g rest s = some t := by
  intro f
  induction f with
  | zero => intro g rest s t _ h; exact absurd h (by simp [flushAux])
  | succ f ih =>
    intro g rest s t hfg h
    obtain ⟨g, rfl⟩ : ∃ g2, g = g2 + 1 := ⟨g - 1, by omega⟩
    cases rest with
    | nil => exact h
    | cons kv rest =>
      obtain ⟨k, v⟩ := kv
      simp only [flushAux] at h ⊢
      cases hput : lmdbPut s k v with
      | mk s1 ok =>
        rw [hput] at h
        cases ok with
        | true => exact ih (by omega) h
        | false =>
          simp only at h ⊢
          by_cases hbe : s1.buffer.isEmpty
          · rw [if_pos hbe] at h ⊢
            exact ih (by omega) h
          · rw [if_neg hbe] at h ⊢
            cases hnest : flushAux f s1.buffer s1 with
            | none => rw [hnest] at h; exact absurd h (by simp)
            | some s2 =>
              rw [hnest] at h
              rw [ih (by omega) hnest]
              exact ih (by omega) h

/-- A run of the flush loop over records that all fit and whose keys are
accepted: each is appended to the transaction in order. -/
theorem flushAux_append_run {V : Type} :
    ∀ (pre : List (List Nat × V)) (rest : List (List Nat × V)) (s : DbState V)
      (fuel : Nat),
      (∀ m, s.lastKey = some m → ∀ kk ∈ pre.map Prod.fst, bytesLt m kk = true) →
      (pre.map Prod.fst).Pairwise (fun a b => bytesLt a b = true) →
      s.committed.length + s.pending.length + pre.length ≤ s.capacity →
      flushAux (pre.length + fuel) (pre ++ rest) s =
        flushAux fuel rest { s with pending := s.pending ++ pre } := by
  intro pre
  induction pre with
  | nil => intro rest s fuel _ _ _; simp
  | cons kv pre ih =>
    intro rest s fuel habove hpair hcap
    obtain ⟨k, v⟩ := kv
    have hp2 : (k :: pre.map Prod.fst).Pairwise (fun a b => bytesLt a b = true) := by
      simpa using hpair
    obtain ⟨hhead, htail⟩ := List.pairwise_cons.mp hp2
    have hok : s.okKey k = true := by
      unfold DbState.okKey
      cases hm : s.lastKey with
      | none => rfl
      | some m => exact habove m hm k (by simp)
    have hfit : s.committed.length + s.pending.length + 1 ≤ s.capacity := by
      simp only [List.length_cons] at hcap; omega
    have hput : lmdbPut s k v = ({ s with pending := s.pending ++ [(k, v)] }, true) := by
      unfold lmdbPut
      rw [if_pos hok, if_pos hfit]
    show flushAux (pre.length + 1 + fuel) ((k, v) :: (pre ++ rest)) s = _
    rw [show pre.length + 1 + fuel = (pre.length + fuel) + 1 by omega]
    show (match lmdbPut s k v with
      | (s1, true) => flushAux (pre.length + fuel) (pre ++ rest) s1
      | (s1, false) =>
        match (if s1.buffer.isEmpty then some s1 else
            flushAux (pre.length + fuel) s1.buffer s1) with
        | none => none
        | some s2 => flushAux (pre.length + fuel) (pre ++ rest) s2) = _
    rw [hput]
    show flushAux (pre.length + fuel) (pre ++ rest)
      { s with pending := s.pending ++ [(k, v)] } = _
    rw [ih rest _ fuel ?_ htail ?_]
    · rw [List.append_assoc]
      rfl
    · intro m hm kk hkk
      have hlast : DbState.lastKey { s with pending := s.pending ++ [(k, v)] }
          = some k := by
        unfold DbState.lastKey
        simp only [← List.append_assoc, List.map_append, List.map_cons,
          List.map_nil]
        rw [List.getLast?_concat]
      rw [hlast] at hm
      cases hm
      exact hhead kk hkk
    · simp only [List.length_append, List.length_cons, List.length_nil]
      simp only [List.length_cons] at hcap
      omega

/-- A run of the flush loop over records whose keys are all refused
(`append=True` returns `False` on keys that are not past the end): the state
is unchanged and the loop ends in the commit. -/
theorem flushAux_refuse_run {V : Type} :
    ∀ (rest : List (List Nat × V)) (s : DbState V),
      (∀ kk ∈ rest.map Prod.fst, s.okKey kk = false) →
      flushAux (rest.length + 1) rest s = some s.commitSt := by
  intro rest
  induction rest with
  | nil => intro s _; rfl
  | cons kv rest ih =>
    intro s href
    obtain ⟨k, v⟩ := kv
    have hput : lmdbPut s k v = (s, true) := by
      unfold lmdbPut
      rw [if_neg (by simp [href k (by simp)])]
    show (match lmdbPut s k v with
      | (s1, true) => flushAux (rest.length + 1) rest s1
      | (s1, false) =>
        match (if s1.buffer.isEmpty then some s1 else
            flushAux (rest.length + 1) s1.buffer s1) with
        | none => none
        | some s2 => flushAux (rest.length + 1) rest s2) = some s.commitSt
    rw [hput]
    exact ih s (fun kk hkk => href kk (by simp [hkk]))

/-- Direct run: when everything fits in the current capacity, one pass commits
the whole buffer. -/
theorem flushAux_direct {V : Type} (C B : List (List Nat × V)) (cap : Nat)
    (habove : ∀ kc ∈ C.map Prod.fst, ∀ kb ∈ B.map Prod.fst, bytesLt kc kb = true)
    (hpair : (B.map Prod.fst).Pairwise (fun a b => bytesLt a b = true))
    (hfit : C.length + B.length ≤ cap) :
    flushAux (B.length + 1) B ⟨C, [], cap, B⟩ =
      some ⟨C ++ B, [], cap, []⟩ := by
  have hrun := flushAux_append_run B [] ⟨C, [], cap, B⟩ 1 ?_ hpair ?_
  · rw [List.append_nil] at hrun
    rw [hrun]
    show some (DbState.commitSt ⟨C, [] ++ B, cap, B⟩) = _
    unfold DbState.commitSt
    simp
  · intro m hm kk _
    unfold DbState.lastKey at hm
    simp only [List.append_nil] at hm
    exact habove m (getLast?_mem_self hm) kk (by assumption)
  · simpa using hfit

/-- Termination and exactly-once commit of `_put_batch`: starting from a clean
transaction, with buffer keys strictly increasing and above every committed
key, some finite recursion depth (each level of which doubles the capacity
after an aborted transaction) commits the whole buffer exactly once. -/
theorem flushAux_commits_all {V : Type} :
    ∀ (k : Nat) (C B : List (List Nat × V)) (cap : Nat),
      1 ≤ cap →
      (B.map Prod.fst).Pairwise (fun a b => bytesLt a b = true) →
      (∀ kc ∈ C.map Prod.fst, ∀ kb ∈ B.map Prod.fst, bytesLt kc kb = true) →
      C.length + B.length ≤ cap * 2 ^ k →
      ∃ fuel cap2, flushAux fuel B ⟨C, [], cap, B⟩ =
        some ⟨C ++ B, [], cap2, []⟩ := by
  intro k
  induction k with
  | zero =>
    intro C B cap hcap hpair habove hbound
    simp only [pow_zero, Nat.mul_one] at hbound
    exact ⟨B.length + 1, cap, flushAux_direct C B cap habove hpair hbound⟩
  | succ k ih =>
    intro C B cap hcap hpair habove hbound
    rcases eq_or_ne B [] with rfl | hBne0
    · refine ⟨1, cap, ?_⟩
      show some (DbState.commitSt ⟨C, [], cap, []⟩) = _
      unfold DbState.commitSt
      simp
    by_cases hfit : C.length + B.length ≤ cap
    · exact ⟨B.length + 1, cap, flushAux_direct C B cap habove hpair hfit⟩
    · -- the capacity is exhausted at record index `j`
      push_neg at hfit
      have hBpos : 0 < B.length := List.length_pos.mpr hBne0
      set j := cap - C.length with hj
      have hjlt : j < B.length := by omega
      have hBsplit : B.take j ++ B.drop j = B := List.take_append_drop j B
      have hpre_len : (B.take j).length = j := by
        rw [List.length_take]; omega
      have hkeys_split : B.map Prod.fst = (B.take j).map Prod.fst ++ (B.drop j).map Prod.fst := by
        rw [← List.map_append, hBsplit]
      obtain ⟨happ_pre, happ_rest, happ_cross⟩ :=
        List.pairwise_append.mp (by rw [← hkeys_split]; exact hpair)
      obtain ⟨⟨k0, v0⟩, post, hdrop⟩ : ∃ kv post, B.drop j = kv :: post := by
        cases hd : B.drop j with
        | nil =>
          have := congrArg List.length hd
          rw [List.length_drop] at this
          simp at this
          omega
        | cons kv post => exact ⟨kv, post, rfl⟩
      have hk0B : k0 ∈ B.map Prod.fst := by
        rw [hkeys_split, hdrop]
        simp
      -- phase 1: fill the transaction up to the capacity
      have hrun : ∀ fuel, flushAux (j + fuel) B ⟨C, [], cap, B⟩ =
          flushAux fuel (B.drop j) ⟨C, [] ++ B.take j, cap, B⟩ := by
        intro fuel
        by_cases hCle : C.length ≤ cap
        · have happly := flushAux_append_run (B.take j) (B.drop j)
            ⟨C, [], cap, B⟩ fuel ?_ happ_pre ?_
          · rw [hpre_len, hBsplit] at happly
            exact happly
          · intro m hm kk hkk
            unfold DbState.lastKey at hm
            simp only [List.append_nil] at hm
            exact habove m (getLast?_mem_self hm) kk
              (by rw [hkeys_split]; exact List.mem_append_left _ hkk)
          · simp only [List.length_nil, hpre_len]
            omega
        · have hj0 : j = 0 := by omega
          rw [hj0]
          simp
      -- phase 2: the next record hits MapFullError
      have hput : lmdbPut ⟨C, [] ++ B.take j, cap, B⟩ k0 v0 =
          (⟨C, [], cap * 2, B⟩, false) := by
        unfold lmdbPut
        rw [if_pos ?_, if_neg ?_]
        · intro hle
          simp only [List.length_append, List.length_nil, hpre_len] at hle
          omega
        · unfold DbState.okKey
          cases hm : DbState.lastKey ⟨C, [] ++ B.take j, cap, B⟩ with
          | none => rfl
          | some m =>
            unfold DbState.lastKey at hm
            simp only [List.nil_append, List.map_append] at hm
            rcases List.mem_append.mp (getLast?_mem_self hm) with hmC | hmP
            · exact habove m hmC k0 hk0B
            · refine happ_cross m hmP k0 ?_
              rw [hdrop]
              simp
      -- phase 3: the aborted, doubled state re-runs the whole batch
      have hnest := ih C B (cap * 2) (by omega) hpair habove
        (by rw [show cap * 2 ^ (k + 1) = cap * 2 * 2 ^ k by ring] at hbound
            exact hbound)
      obtain ⟨f1, cap2, hnest⟩ := hnest
      -- phase 4: the interrupted iteration finds every key refused
      have hrefuse : ∀ kk ∈ post.map Prod.fst,
          DbState.okKey (⟨C ++ B, [], cap2, []⟩ : DbState V) kk = false := by
        intro kk hkk
        have hkkB : kk ∈ B.map Prod.fst := by
          rw [hkeys_split, hdrop]
          simp only [List.map_cons, List.mem_append, List.mem_cons]
          right; right; exact hkk
        have hBne : B.map Prod.fst ≠ [] := by
          intro he
          rw [he] at hkkB
          exact absurd hkkB (List.not_mem_nil kk)
        unfold DbState.okKey DbState.lastKey
        simp only [List.append_nil, List.map_append]
        rw [List.getLast?_append_of_ne_nil _ hBne]
        cases hM : (B.map Prod.fst).getLast? with
        | none =>
          rw [List.getLast?_eq_none_iff] at hM
          exact absurd hM hBne
        | some M =>
          rcases pairwise_getLast? hpair hM kk hkkB with rfl | hlt
          · exact bytesLt_irrefl kk
          · exact bytesLt_asymm hlt
      set F := max f1 (post.length + 1) with hF
      refine ⟨j + (F + 1), cap2, ?_⟩
      rw [hrun (F + 1), hdrop]
      show (match lmdbPut ⟨C, [] ++ B.take j, cap, B⟩ k0 v0 with
        | (s1, true) => flushAux F post s1
        | (s1, false) =>
          match (if s1.buffer.isEmpty then some s1 else
              flushAux F s1.buffer s1) with
          | none => none
          | some s2 => flushAux F post s2) = _
      rw [hput]
      have hBne : B ≠ [] := by
        intro he
        rw [he] at hjlt
        simp at hjlt
      show (match (if (B : List (List Nat × V)).isEmpty then
            some (⟨C, [], cap * 2, B⟩ : DbState V) else
            flushAux F B ⟨C, [], cap * 2, B⟩) with
        | none => none
        | some s2 => flushAux F post s2) = _
      rw [if_neg (by simpa using hBne)]
      rw [flushAux_mono f1 (le_max_left _ _) hnest]
      show flushAux F post ⟨C ++ B, [], cap2, []⟩ = _
      have hrr := flushAux_refuse_run post (⟨C ++ B, [], cap2, []⟩ : DbState V) hrefuse
      rw [flushAux_mono (post.length + 1) (le_max_right f1 (post.length + 1)) hrr]
      unfold DbState.commitSt
      simp

/-! ### The `LMDB_Dataset` writer class -/

/-- The `labels` argument of `put`: `None`, a single `int`, or a sequence. -/
inductive PyLabels where
  | none
  | int (n : Int)
  | list (l : List Int)

/-- Writer state: the store (committed/pending/capacity as in `DbState`),
the configured flush threshold `queue_size`, the running index, and the two
parallel buffer lists. -/
structure LMDB_Dataset where
  committed : List (List Nat × Datum)
  pending : List (List Nat × Datum)
  capacity : Nat
  queue_size : Nat
  index : Nat
  key_list : List (List Nat)
  value_list : List Datum
  deriving DecidableEq

namespace LMDB_Dataset

/-- `LMDB_Dataset.__init__(path, queue_size=100, map_size=20e6)` on a fresh
store.  The capacity is counted in records in the model. -/
def init (queue_size : Nat := 100) (map_size : Nat := 20000000) : LMDB_Dataset :=
  { committed := [], pending := [], capacity := map_size,
    queue_size := queue_size, index := 0, key_list := [], value_list := [] }

/-- The store view of a writer: the buffer the flush loop iterates is
`zip(self.key_list, self.value_list)` (`zip` truncates to the shorter list). -/
def toDb (w : LMDB_Dataset) : DbState Datum :=
  ⟨w.committed, w.pending, w.capacity, w.key_list.zip w.value_list⟩

/-- `LMDB_Dataset._put_batch`: no-op on an empty `key_list`; otherwise run the
flush loop, then carry the commit plus the clearing of both lists back into
the writer.  `none` means the recursion fuel ran out. -/
def put_batch (fuel : Nat) (w : LMDB_Dataset) : Option LMDB_Dataset :=
  if w.key_list.length = 0 then some w
  else
    match flushAux fuel (w.key_list.zip w.value_list) w.toDb with
    | none => none
    | some d => some { w with
        committed := d.committed
        pending := d.pending
        capacity := d.capacity
        key_list := []
        value_list := [] }

/-- The inner `put_datum` helper of `put`: a sequence label is subscripted at
`0..num-1` (an `IndexError` escapes if it is too short; extra labels are
ignored), `None` is broadcast, and a single `int` becomes the one-element list
`[labels]` — which `zip` then silently truncates against.  Each (array, label)
pair is encoded and serialized. -/
def put_datum (arr : List NDArray) (labels : PyLabels) :
    Except PyErr (List Datum) :=
  let num := arr.length
  match labels with
  | .list l =>
    if num ≤ l.length then
      encDatumList (arr.zip ((l.take num).map Option.some))
    else .error .indexError
  | .none => encDatumList (arr.zip (List.replicate num Option.none))
  | .int n => encDatumList (arr.zip [some n])
where
  /-- The list comprehension `[array_to_datum(g, l).SerializeToString() ...]`. -/
  encDatumList : List (NDArray × Option Int) → Except PyErr (List Datum)
  | [] => .ok []
  | (g, l) :: rest => do
    let d ← array_to_datum g l
    let ds ← encDatumList rest
    .ok (d :: ds)

/-- `LMDB_Dataset.put(images, labels=None, keys=None)` for a sequence of
images.  Keys default to the empty suffix per image; the `assert` checks the
key count; the formatted keys are appended to `key_list` *before* `put_datum`
runs, so an exception escaping `put_datum` leaves the keys buffered.  When the
buffer reaches `queue_size`, `_put_batch` runs.  The result pairs the writer
state after the call with the exception if one escaped. -/
def put (fuel : Nat) (w : LMDB_Dataset) (images : List NDArray)
    (labels : PyLabels := .none) (keys : Option (List (List Nat)) := Option.none) :
    Option (LMDB_Dataset × Option PyErr) :=
  let num := images.length
  let ks := keys.getD (List.replicate num [])
  if ks.length ≠ num then some (w, some .assertionError)
  else
    let fkeys := (List.range num).zip ks |>.map (fun p => dbKey (w.index + p.1) p.2)
    let w1 := { w with key_list := w.key_list ++ fkeys }
    match put_datum images labels with
    | .error e => some (w1, some e)
    | .ok vals =>
      let w2 := { w1 with value_list := w1.value_list ++ vals, index := w1.index + num }
      if w2.queue_size ≤ w2.key_list.length then
        match put_batch fuel w2 with
        | Option.none => Option.none
        | some w3 => some (w3, Option.none)
      else some (w2, Option.none)

/-- `LMDB_Dataset.close`: a final `_put_batch`, then the handle is closed. -/
def close (fuel : Nat) (w : LMDB_Dataset) : Option LMDB_Dataset :=
  put_batch fuel w

end LMDB_Dataset

/-- `lmdb_data(dataset_org)`: open read-only and iterate the cursor in key
order, parsing each value as a `Datum` and decoding it.  The model's
`committed` list is maintained in key order (the writer only appends
in-order), so iteration is a map over it. -/
def lmdb_data (committed : List (List Nat × Datum)) :
    List (List Nat × Except PyErr NDArray) :=
  committed.map (fun kv => (kv.1, datum_to_array kv.2))

/-- The successful result of `array_to_datum` as a total function (well
defined whenever the dtype is registered). -/
def datumOf (arr : NDArray) (label : Option Int) : Datum :=
  { shape := if arr.shape = [] then none else some arr.shape
    label := label
    dtype := (ufw_dtype arr.dtype).getD 0
    data := if arr.dtype = .fp32 then [] else bytesOfVals arr.dtype arr.data
    float_data := if arr.dtype = .fp32 then arr.data else [] }

theorem array_to_datum_eq_datumOf {a : NDArray} (lb : Option Int)
    (h : (ufw_dtype a.dtype).isSome = true) :
    array_to_datum a lb = .ok (datumOf a lb) := by
  obtain ⟨tag, htag⟩ := Option.isSome_iff_exists.mp h
  unfold array_to_datum datumOf
  rw [htag]
  simp

theorem datum_to_array_datumOf {a : NDArray} (lb : Option Int)
    (hg : GoodArr a) : datum_to_array (datumOf a lb) = .ok a := by
  obtain ⟨dm, he, _, hd⟩ := datum_roundtrip_of_goodArr a lb hg
  rw [array_to_datum_eq_datumOf lb hg.1] at he
  cases he
  exact hd

theorem put_datum_none (images : List NDArray)
    (h : ∀ a ∈ images, (ufw_dtype a.dtype).isSome = true) :
    LMDB_Dataset.put_datum images .none =
      .ok (images.map (fun a => datumOf a Option.none)) := by
  unfold LMDB_Dataset.put_datum
  induction images with
  | nil => rfl
  | cons a rest ih =>
    show LMDB_Dataset.put_datum.encDatumList
        ((a, Option.none) :: rest.zip (List.replicate rest.length Option.none)) = _
    rw [LMDB_Dataset.put_datum.encDatumList]
    rw [array_to_datum_eq_datumOf Option.none (h a (by simp))]
    have ihh := ih (fun x hx => h x (by simp [hx]))
    simp only at ihh
    rw [show (rest.zip (List.replicate rest.length Option.none)) =
      (rest.zip (List.replicate rest.length Option.none)) from rfl]
    rw [ihh]
    rfl

theorem zip_replicate_self {α β : Type} :
    ∀ (l : List α) (n : Nat) (x : β), l.length ≤ n →
      l.zip (List.replicate n x) = l.map (fun a => (a, x)) := by
  intro l
  induction l with
  | nil => intro n x _; rfl
  | cons a rest ih =>
    intro n x h
    obtain ⟨m, rfl⟩ : ∃ m, n = m + 1 := ⟨n - 1, by simp at h; omega⟩
    show (a :: rest).zip (x :: List.replicate m x) = _
    simp only [List.zip_cons_cons, List.map_cons]
    rw [ih m x (by simp at h; omega)]

/-- One `put` call with good arrays, default labels and keys, below the flush
threshold: the keys and encoded values are appended and the index advances. -/
theorem put_good (w : LMDB_Dataset) (images : List NDArray)
    (hgood : ∀ a ∈ images, GoodArr a)
    (hq : w.key_list.length + images.length < w.queue_size) :
    LMDB_Dataset.put 0 w images .none Option.none =
      some ({ w with
        key_list := w.key_list ++
          (List.range images.length).map (fun i => dbKey (w.index + i) [])
        value_list := w.value_list ++ images.map (fun a => datumOf a Option.none)
        index := w.index + images.length }, Option.none) := by
  unfold LMDB_Dataset.put
  rw [if_neg (by simp)]
  rw [put_datum_none images (fun a ha => (hgood a ha).1)]
  simp only [Option.getD_none]
  rw [zip_replicate_self (List.range images.length) images.length ([] : List Nat)
    (by simp)]
  rw [List.map_map]
  rw [if_neg (by simp; omega)]
  rfl

/-- A caller performing a sequence of `put` calls (one list of arrays per
call), stopping on the first escaping exception. -/
def putSeq (fuel : Nat) (w : LMDB_Dataset) :
    List (List NDArray) → Option (LMDB_Dataset × Option PyErr)
  | [] => some (w, Option.none)
  | b :: bs =>
    match LMDB_Dataset.put fuel w b with
    | Option.none => Option.none
    | some (w1, some e) => some (w1, some e)
    | some (w1, Option.none) => putSeq fuel w1 bs

theorem putSeq_good :
    ∀ (bs : List (List NDArray)) (w : LMDB_Dataset),
      (∀ a ∈ bs.flatten, GoodArr a) →
      w.key_list.length + bs.flatten.length < w.queue_size →
      putSeq 0 w bs = some ({ w with
        key_list := w.key_list ++
          (List.range bs.flatten.length).map (fun i => dbKey (w.index + i) [])
        value_list := w.value_list ++ bs.flatten.map (fun a => datumOf a Option.none)
        index := w.index + bs.flatten.length }, Option.none) := by
  intro bs
  induction bs with
  | nil => intro w _ _; simp [putSeq]
  | cons b bs ih =>
    intro w hgood hq
    have hjoin : (b :: bs).flatten = b ++ bs.flatten := by simp
    rw [hjoin] at hgood hq ⊢
    rw [List.length_append] at hq
    have hput := put_good w b (fun a ha => hgood a (by simp [ha]))
      (by omega)
    show (match LMDB_Dataset.put 0 w b .none Option.none with
      | Option.none => Option.none
      | some (w1, some e) => some (w1, some e)
      | some (w1, Option.none) => putSeq 0 w1 bs) = _
    rw [hput]
    show putSeq 0 _ bs = _
    rw [ih _ (fun a ha => hgood a (by simp [ha])) ?_]
    · simp only [List.length_append, List.range_add, List.map_append,
        List.map_map, List.append_assoc, List.map_cons, Function.comp,
        Nat.add_assoc, List.length_map, List.length_range]
      rfl
    · simp only [List.length_append, List.length_map, List.length_range]
      omega

/-- `flushAux_commits_all` with the doubling count chosen: any capacity of at
least one record suffices. -/
theorem flushAux_total {V : Type} (C B : List (List Nat × V)) (cap : Nat)
    (hcap : 1 ≤ cap)
    (hpair : (B.map Prod.fst).Pairwise (fun a b => bytesLt a b = true))
    (habove : ∀ kc ∈ C.map Prod.fst, ∀ kb ∈ B.map Prod.fst, bytesLt kc kb = true) :
    ∃ fuel cap2, flushAux fuel B ⟨C, [], cap, B⟩ =
      some ⟨C ++ B, [], cap2, []⟩ := by
  apply flushAux_commits_all (C.length + B.length) C B cap hcap hpair habove
  have h2 : C.length + B.length < 2 ^ (C.length + B.length) :=
    Nat.lt_two_pow _
  calc C.length + B.length ≤ 2 ^ (C.length + B.length) := by omega
    _ = 1 * 2 ^ (C.length + B.length) := by omega
    _ ≤ cap * 2 ^ (C.length + B.length) :=
      Nat.mul_le_mul_right _ hcap

/-! ### The claims -/

/-- C1: during `_put_batch`, a `MapFullError` on any single write aborts the
transaction, doubles the map size, reopens a transaction and retries the whole
batch from the start; once the flush completes, each of the buffered records
is committed exactly once — the store's content is exactly the old committed
records followed by the buffered batch, with nothing duplicated or lost.
Stated for every clean-transaction writer state whose buffered keys are
strictly increasing and above all committed keys (the writer's invariant), at
every positive capacity — including all the capacities that force one or more
capacity errors and doublings during the flush. -/
theorem flush_commits_each_buffered_record_exactly_once {V : Type}
    (s : DbState V)
    (hpend : s.pending = [])
    (hcap : 1 ≤ s.capacity)
    (hpair : (s.buffer.map Prod.fst).Pairwise (fun a b => bytesLt a b = true))
    (habove : ∀ kc ∈ s.committed.map Prod.fst, ∀ kb ∈ s.buffer.map Prod.fst,
      bytesLt kc kb = true) :
    ∃ fuel s2, putBatchDb fuel s = some s2 ∧
      s2.committed = s.committed ++ s.buffer ∧
      s2.pending = [] ∧ s2.buffer = [] := by
  obtain ⟨C, P, cap, B⟩ := s
  simp only at hpend hcap hpair habove
  subst hpend
  rcases eq_or_ne B [] with rfl | hBne
  · exact ⟨0, ⟨C, [], cap, []⟩, rfl, by simp, rfl, rfl⟩
  · obtain ⟨fuel, cap2, hflush⟩ := flushAux_total C B cap hcap hpair habove
    refine ⟨fuel, ⟨C ++ B, [], cap2, []⟩, ?_, rfl, rfl, rfl⟩
    unfold putBatchDb
    rw [if_neg (by simpa using hBne)]
    exact hflush

/-- Witness for C1: a fresh store of capacity one record flushing a batch of
three records (so at least two capacity doublings happen) commits exactly the
three records. -/
theorem flush_commits_each_buffered_record_exactly_once_witness :
    ∃ fuel s2,
      putBatchDb fuel
        (⟨[], [], 1, [([48], 0), ([49], 1), ([50], 2)]⟩ : DbState Nat) = some s2 ∧
      s2.committed = [] ++ [([48], 0), ([49], 1), ([50], 2)] ∧
      s2.pending = [] ∧ s2.buffer = [] :=
  flush_commits_each_buffered_record_exactly_once
    (⟨[], [], 1, [([48], 0), ([49], 1), ([50], 2)]⟩ : DbState Nat)
    rfl (by decide) (by decide) (by decide)

/-- C2, counterexample: for an `int8` array the encoder stores the payload in
`int32_data`, but `blobproto_to_array` reads only the float field `blob.data`,
so decoding the encoded vector fails (`reshape` of an empty array to one
element) instead of returning the array — the claimed round trip is false for
integer dtypes. -/
theorem blob_vector_roundtrip_counterexample :
    arraylist_to_blobprotovector_str [⟨.i8, [1], [5]⟩] =
      .ok [{ shape_dim := [1], dtype := 2, int32_data := [5] }] ∧
    (do
      let v ← arraylist_to_blobprotovector_str [⟨.i8, [1], [5]⟩]
      blobprotovector_str_to_arraylist v) = .error .valueError := ⟨rfl, rfl⟩

/-- C2, amended: for lists whose dtypes are the two registered floating
dtypes, decoding the encoded vector yields a list of the same length whose
i-th array has the values (after the value-exact float32 cast) and shape of
the i-th input; the decoded dtype is `float64` (numpy's default for
`np.array` over the float payload), not the input dtype.  Integer-dtype blobs
are not decodable by this path at all (their `int32_data` payload is ignored
and `reshape` fails). -/
theorem blob_vector_roundtrip_floats (l : List NDArray)
    (h : ∀ a ∈ l, (a.dtype = .fp32 ∨ a.dtype = .fp16) ∧
      a.data.length = a.shape.prod) :
    ∃ v, arraylist_to_blobprotovector_str l = .ok v ∧
      blobprotovector_str_to_arraylist v =
        .ok (l.map (fun a => ⟨.f64, a.shape, a.data.map castF32⟩)) := by
  unfold arraylist_to_blobprotovector_str blobprotovector_str_to_arraylist
  induction l with
  | nil => exact ⟨[], rfl, rfl⟩
  | cons a rest ih =>
    obtain ⟨hdt, hlen⟩ := h a (by simp)
    obtain ⟨v, hv1, hv2⟩ := ih (fun x hx => h x (by simp [hx]))
    have htag : ∃ tag, ufw_dtype a.dtype = some tag := by
      rcases hdt with hd | hd <;> rw [hd] <;> exact ⟨_, rfl⟩
    obtain ⟨tag, htag⟩ := htag
    have hfk : a.dtype.isFloatKind = true := by
      rcases hdt with hd | hd <;> rw [hd] <;> rfl
    have henc : array_to_blobproto a =
        .ok { shape_dim := a.shape, dtype := tag, data := a.data.map castF32 } := by
      unfold array_to_blobproto
      rw [htag]
      simp only [hfk, if_true]
    refine ⟨{ shape_dim := a.shape, dtype := tag, data := a.data.map castF32 } :: v, ?_, ?_⟩
    · show encBlobList (a :: rest) = _
      rw [encBlobList, henc]
      rw [show encBlobList rest = .ok v from hv1]
      rfl
    · show decBlobList (_ :: v) = _
      rw [decBlobList]
      have hdec : blobproto_to_array
          { shape_dim := a.shape, dtype := tag, data := a.data.map castF32 } =
          .ok ⟨.f64, a.shape, a.data.map castF32⟩ := by
        unfold blobproto_to_array
        rw [if_neg (by simp)]
        rw [if_pos (by simpa using hlen)]
        simp
      rw [hdec, hv2]
      rfl

/-- Witness for C2's amended theorem: a two-element float list round-trips
into `float64` arrays with the same shapes and values. -/
theorem blob_vector_roundtrip_floats_witness :
    ∃ v, arraylist_to_blobprotovector_str
        ([⟨.fp32, [2], [1, 2]⟩, ⟨.fp16, [1], [3]⟩] : List NDArray) = .ok v ∧
      blobprotovector_str_to_arraylist v =
        .ok (([⟨.fp32, [2], [1, 2]⟩, ⟨.fp16, [1], [3]⟩] : List NDArray).map
          (fun a => ⟨.f64, a.shape, a.data.map castF32⟩)) :=
  blob_vector_roundtrip_floats ([⟨.fp32, [2], [1, 2]⟩, ⟨.fp16, [1], [3]⟩] : List NDArray)
    (by decide)

/-- C6, counterexample: a blob with a non-empty declared shape but an entirely
empty payload (both payload fields empty) has payload length 0, which does not
equal the shape product 2 — yet `blob_to_array` does not fail with
`ShapeMismatch`: it falls through both payload branches and returns `None`. -/
theorem blob_to_array_empty_payload_counterexample :
    ({ shape_dim := [2] } : BlobProto).shape_dim ≠ [] ∧
    ({ shape_dim := [2] } : BlobProto).data.length ≠ List.prod [2] ∧
    ({ shape_dim := [2] } : BlobProto).int32_data.length ≠ List.prod [2] ∧
    blob_to_array { shape_dim := [2] } = .ok .noneRes := by
  refine ⟨by decide, by decide, by decide, rfl⟩

/-- The payload `blob_to_array` decodes: the float field when populated,
otherwise the int32 field. -/
def payload (b : BlobProto) : List Int :=
  if b.data ≠ [] then b.data else b.int32_data

theorem toArrayB_cases (shape : List Nat) (data : List Int) (d : DType)
    (cast : Int → Int) :
    (shape = [] ∧ data.length = 1 → toArrayB shape data d cast = .ok (.raw data)) ∧
    (shape = [] ∧ 1 < data.length →
      toArrayB shape data d cast = .error .scalarExpected) ∧
    (shape ≠ [] ∧ 0 < data.length ∧ data.length ≠ shape.prod →
      toArrayB shape data d cast = .error .valueError) := by
  refine ⟨?_, ?_, ?_⟩
  · rintro ⟨h1, h2⟩
    unfold toArrayB
    rw [if_pos ⟨h1, h2⟩]
  · rintro ⟨h1, h2⟩
    unfold toArrayB
    rw [if_neg (by omega), if_pos ⟨h1, h2⟩]
  · rintro ⟨h1, h2, h3⟩
    unfold toArrayB
    rw [if_neg (by simp [h1]), if_neg (by simp [h1]), if_pos h2, if_neg h3]

/-- C6, amended: decoding a populated (nonempty) payload returns the raw
payload (whose single element is the scalar) when the declared shape is empty
and the payload has exactly one element; raises the hard "Expected a scalar"
error when the shape is empty and the payload has more than one element; and
fails with `ShapeMismatch` (numpy `ValueError`) when the shape is non-empty
and the payload length differs from the shape product.  (A blob with both
payload fields empty instead returns `None` without an error, per the
counterexample.) -/
theorem blob_to_array_shape_cases (b : BlobProto)
    (hp : b.data ≠ [] ∨ b.int32_data ≠ []) :
    (b.shape_dim = [] ∧ (payload b).length = 1 →
      blob_to_array b = .ok (.raw (payload b))) ∧
    (b.shape_dim = [] ∧ 1 < (payload b).length →
      blob_to_array b = .error .scalarExpected) ∧
    (b.shape_dim ≠ [] ∧ (payload b).length ≠ b.shape_dim.prod →
      blob_to_array b = .error .valueError) := by
  by_cases hd : b.data = []
  · have hi : b.int32_data ≠ [] := by
      rcases hp with h | h
      · exact absurd hd h
      · exact h
    have hplen : 0 < b.int32_data.length := List.length_pos.mpr hi
    have hpay : payload b = b.int32_data := by
      unfold payload
      rw [if_neg (by simp [hd])]
    have hopen : blob_to_array b = toArrayB b.shape_dim b.int32_data .i32 castI32 := by
      unfold blob_to_array
      rw [if_neg (by simp [hd]), if_pos hplen]
    obtain ⟨c1, c2, c3⟩ := toArrayB_cases b.shape_dim b.int32_data .i32 castI32
    rw [hpay, hopen]
    exact ⟨fun h => c1 h, fun h => c2 h, fun h => c3 ⟨h.1, hplen, h.2⟩⟩
  · have hplen : 0 < b.data.length := List.length_pos.mpr hd
    have hpay : payload b = b.data := by
      unfold payload
      rw [if_pos (by simp [hd])]
    have hopen : blob_to_array b = toArrayB b.shape_dim b.data .fp32 castF32 := by
      unfold blob_to_array
      rw [if_pos hplen]
    obtain ⟨c1, c2, c3⟩ := toArrayB_cases b.shape_dim b.data .fp32 castF32
    rw [hpay, hopen]
    exact ⟨fun h => c1 h, fun h => c2 h, fun h => c3 ⟨h.1, hplen, h.2⟩⟩

/-- Witness for C6's amended theorem: the three cases at concrete blobs —
a one-element scalar blob decodes to its payload, a two-element empty-shape
blob raises, and a payload of three elements against shape `[2]` is a
`ShapeMismatch`. -/
theorem blob_to_array_shape_cases_witness :
    blob_to_array { shape_dim := [], data := [5] } = .ok (.raw [5]) ∧
    blob_to_array { shape_dim := [], data := [5, 6] } = .error .scalarExpected ∧
    blob_to_array { shape_dim := [2], int32_data := [1, 2, 3] } =
      .error .valueError := by
  refine ⟨?_, ?_, ?_⟩
  · exact (blob_to_array_shape_cases { shape_dim := [], data := [5] }
      (by decide)).1 (by decide)
  · exact (blob_to_array_shape_cases { shape_dim := [], data := [5, 6] }
      (by decide)).2.1 (by decide)
  · exact (blob_to_array_shape_cases { shape_dim := [2], int32_data := [1, 2, 3] }
      (by decide)).2.2 (by decide)

theorem array_to_blobproto_total (b : NDArray) :
    (∃ x, array_to_blobproto b = .ok x) ∨
      array_to_blobproto b = .error .unsupportedDtype := by
  obtain ⟨dt, sh, data⟩ := b
  cases dt
  case f64 => exact Or.inr rfl
  case i64 => exact Or.inr rfl
  all_goals exact Or.inl ⟨_, rfl⟩

theorem encBlobList_error {l : List NDArray}
    (h : ∃ a ∈ l, array_to_blobproto a = .error .unsupportedDtype) :
    encBlobList l = .error .unsupportedDtype := by
  induction l with
  | nil => obtain ⟨a, ha, _⟩ := h; exact absurd ha (List.not_mem_nil a)
  | cons x rest ih =>
    rw [encBlobList]
    rcases array_to_blobproto_total x with ⟨y, hy⟩ | hy
    · rw [hy]
      obtain ⟨a, ha, hae⟩ := h
      rcases List.mem_cons.mp ha with rfl | hat
      · rw [hy] at hae
        exact absurd hae (by simp)
      · rw [ih ⟨a, hat, hae⟩]
        rfl
    · rw [hy]
      rfl

/-- C7: encoding an array whose dtype is not among the eight registered ones
fails with `UnsupportedDtype` (the registry lookup's `KeyError`) and produces
no output; a blob-vector encoding of any list containing such an array fails
as a whole with the same error and produces no output. -/
theorem encode_unregistered_dtype_fails (a : NDArray) (l : List NDArray)
    (hd : ufw_dtype a.dtype = none) (hmem : a ∈ l) :
    array_to_blobproto a = .error .unsupportedDtype ∧
      arraylist_to_blobprotovector_str l = .error .unsupportedDtype := by
  have ha : array_to_blobproto a = .error .unsupportedDtype := by
    unfold array_to_blobproto
    rw [hd]
  exact ⟨ha, encBlobList_error ⟨a, hmem, ha⟩⟩

/-- Witness for C7: a `float64` array (in the float-cast tuple but not in the
registry) fails alone and poisons a whole list. -/
theorem encode_unregistered_dtype_fails_witness :
    array_to_blobproto ⟨.f64, [1], [0]⟩ = .error .unsupportedDtype ∧
      arraylist_to_blobprotovector_str
        [⟨.fp32, [1], [1]⟩, ⟨.f64, [1], [0]⟩] = .error .unsupportedDtype :=
  encode_unregistered_dtype_fails ⟨.f64, [1], [0]⟩
    [⟨.fp32, [1], [1]⟩, ⟨.f64, [1], [0]⟩] rfl (by decide)

/-- Whether any of the four legacy shape fields is present on a blob. -/
def legacyPresent (b : BlobProto) : Bool :=
  b.num.isSome || b.channels.isSome || b.height.isSome || b.width.isSome

/-- C8: when decoding a blob, the shape of a successfully decoded array is the
stored dimension list — except that whenever any of the legacy four fields
(num, channels, height, width) is present, the legacy 4-D shape (with absent
legacy fields defaulting to 0) is used instead, taking precedence over the
dimension list. -/
theorem blob_decode_legacy_precedence (b : BlobProto) (arr : NDArray)
    (hok : blobproto_to_array b = .ok arr) :
    (legacyPresent b = true →
      arr.shape = [b.num.getD 0, b.channels.getD 0, b.height.getD 0, b.width.getD 0]) ∧
    (legacyPresent b = false → arr.shape = b.shape_dim) := by
  unfold blobproto_to_array at hok
  constructor
  · intro hleg
    rw [if_pos (by simpa [legacyPresent] using hleg)] at hok
    by_cases hlen : b.data.length =
        List.prod [b.num.getD 0, b.channels.getD 0, b.height.getD 0, b.width.getD 0]
    · rw [if_pos (by simpa using hlen)] at hok
      cases hok
      rfl
    · rw [if_neg (by simpa using hlen)] at hok
      exact absurd hok (by simp)
  · intro hleg
    rw [if_neg (by simpa [legacyPresent] using hleg)] at hok
    by_cases hlen : b.data.length = b.shape_dim.prod
    · rw [if_pos (by simpa using hlen)] at hok
      cases hok
      rfl
    · rw [if_neg (by simpa using hlen)] at hok
      exact absurd hok (by simp)

/-- Witness for C8: a blob carrying both a dimension list `[4]` and legacy
fields decodes to the legacy shape `[1, 1, 2, 2]`, not `[4]`. -/
theorem blob_decode_legacy_precedence_witness :
    blobproto_to_array { shape_dim := [4], num := some 1, channels := some 1, height := some 2, width := some 2, data := [9, 9, 9, 9] } =
      .ok ⟨.f64, [1, 1, 2, 2], [9, 9, 9, 9]⟩ ∧
    (⟨.f64, [1, 1, 2, 2], [9, 9, 9, 9]⟩ : NDArray).shape = [1, 1, 2, 2] := by
  refine ⟨rfl, ?_⟩
  exact (blob_decode_legacy_precedence
    { shape_dim := [4], num := some 1, channels := some 1, height := some 2, width := some 2, data := [9, 9, 9, 9] }
    ⟨.f64, [1, 1, 2, 2], [9, 9, 9, 9]⟩ rfl).1 rfl

/-- C9, counterexample: a 0-dimensional `float32` array does not round-trip
through the datum codec — `datum.shape.dim.extend(())` leaves the `shape`
field absent, so decoding falls back to the legacy `[channels, height, width]`
= `[0, 0, 0]` shape and the `reshape` of the one-element payload raises. -/
theorem datum_roundtrip_counterexample :
    (array_to_datum ⟨.fp32, [], [3]⟩ (some 7)).bind datum_to_array =
      .error .valueError := rfl

/-- C9, amended: for every array of a registered dtype with a non-empty shape,
a positive element count unless the dtype is `float32`, and elements within
the dtype's machine range, the encoded datum carries the given label and
decodes back to an array equal to the original — byte-exact for the non-float32
dtypes (raw-byte payload) and exact for `float32` (the float payload holds
32-bit floats).  Excluded are 0-d arrays (the shape field is lost and decode
raises, per the counterexample) and empty non-float32 arrays (covered by the
empty-array claim: the dtype comes back as `float32`). -/
theorem datum_roundtrip_good (a : NDArray) (L : Int) (hg : GoodArr a) :
    ∃ dm, array_to_datum a (some L) = .ok dm ∧ dm.label = some L ∧
      datum_to_array dm = .ok a :=
  datum_roundtrip_of_goodArr a (some L) hg

/-- Witness for C9's amended theorem: an `int16` array with a negative and a
wide value round-trips byte-exactly with its label. -/
theorem datum_roundtrip_good_witness :
    ∃ dm, array_to_datum ⟨.i16, [2], [-5, 300]⟩ (some 2) = .ok dm ∧
      dm.label = some 2 ∧ datum_to_array dm = .ok ⟨.i16, [2], [-5, 300]⟩ :=
  datum_roundtrip_good ⟨.i16, [2], [-5, 300]⟩ 2 (by decide)

/-- C10: a zero-element array of any registered dtype other than `float32`
encodes to a datum with an empty raw-byte payload, and decoding routes through
the float-sequence branch — the result is an empty `float32` array of the
original shape, so the original dtype is not recovered. -/
theorem empty_array_dtype_not_recovered (a : NDArray) (lb : Option Int)
    (hreg : (ufw_dtype a.dtype).isSome = true) (hfp : a.dtype ≠ .fp32)
    (hdata : a.data = []) (hprod : a.shape.prod = 0) :
    ∃ dm, array_to_datum a lb = .ok dm ∧
      datum_to_array dm = .ok ⟨.fp32, a.shape, []⟩ := by
  have hsh : a.shape ≠ [] := by
    intro he
    rw [he] at hprod
    simp at hprod
  refine ⟨datumOf a lb, array_to_datum_eq_datumOf lb hreg, ?_⟩
  unfold datum_to_array datumOf
  rw [hdata]
  simp only [if_neg hsh, if_neg hfp]
  show (if (bytesOfVals a.dtype []).length ≠ 0 then _ else _) = _
  rw [if_neg (by simp [bytesOfVals])]
  rw [if_pos (by simp [hfp, hprod])]
  simp [hfp]

/-- Witness for C10: an empty `int8` array comes back as an empty `float32`
array. -/
theorem empty_array_dtype_not_recovered_witness :
    ∃ dm, array_to_datum ⟨.i8, [0], []⟩ Option.none = .ok dm ∧
      datum_to_array dm = .ok ⟨.fp32, [0], []⟩ :=
  empty_array_dtype_not_recovered ⟨.i8, [0], []⟩ Option.none
    rfl (by decide) rfl rfl

/-- C3 (code bug): `put` of two arrays with a single shared `int` label turns
the label into the one-element list `[5]`, and `zip(arr, labels)` silently
truncates — only the first array is encoded.  The buffer gains two keys but
only one value, desynchronizing the parallel `key_list`/`value_list` (whose
later `zip` in `_put_batch` drops the extra key), instead of the claimed N
keys and N values each carrying the label. -/
theorem put_shared_int_label_desyncs_buffer :
    ∃ w1, LMDB_Dataset.put 0 LMDB_Dataset.init
        [⟨.fp32, [1], [0]⟩, ⟨.fp32, [1], [1]⟩] (.int 5) = some (w1, Option.none) ∧
      w1.key_list.length = 2 ∧ w1.value_list.length = 1 ∧
      w1.value_list = [datumOf ⟨.fp32, [1], [0]⟩ (some 5)] := by
  refine ⟨{ LMDB_Dataset.init with
      index := 2
      key_list := [dbKey 0 [], dbKey 1 []]
      value_list := [datumOf ⟨.fp32, [1], [0]⟩ (some 5)] }, ?_, rfl, rfl, rfl⟩
  rfl

/-- C5, counterexample: `put` of one image with the two-element label list
`[7, 8]` (`len(labels) != len(images)`) does not fail at all — the label
comprehension takes the first `len(images)` labels — and the buffer grows by
one record, contradicting both the claimed `ArgumentMismatch` failure and the
claimed unchanged buffer. -/
theorem put_label_mismatch_counterexample :
    ∃ w1, LMDB_Dataset.put 0 LMDB_Dataset.init
        [⟨.fp32, [1], [0]⟩] (.list [7, 8]) = some (w1, Option.none) ∧
      w1.key_list = [dbKey 0 []] ∧
      w1.value_list = [datumOf ⟨.fp32, [1], [0]⟩ (some 7)] := by
  refine ⟨{ LMDB_Dataset.init with
      index := 1
      key_list := [dbKey 0 []]
      value_list := [datumOf ⟨.fp32, [1], [0]⟩ (some 7)] }, ?_, rfl, rfl⟩
  rfl

/-- C5, amended: when fewer labels than images are supplied, the call raises
`IndexError` (not an `ArgumentMismatch`) from the label comprehension — but
only after `key_list` has already been extended by one formatted key per
image, so the writer's buffer is left partially modified (keys without
values); `value_list` and the index are unchanged.  (When more labels than
images are supplied the call succeeds with the first `len(images)` labels,
per the counterexample.) -/
theorem put_label_undersupply_partial_buffer (w : LMDB_Dataset)
    (images : List NDArray) (ls : List Int)
    (hlt : ls.length < images.length) :
    LMDB_Dataset.put 0 w images (.list ls) Option.none =
      some ({ w with key_list := w.key_list ++
        (List.range images.length).map (fun i => dbKey (w.index + i) []) },
        some .indexError) := by
  unfold LMDB_Dataset.put
  rw [if_neg (by simp)]
  have hpd : LMDB_Dataset.put_datum images (.list ls) = .error .indexError := by
    simp only [LMDB_Dataset.put_datum]
    rw [if_neg (by omega)]
  rw [hpd]
  simp only [Option.getD_none]
  rw [zip_replicate_self (List.range images.length) images.length ([] : List Nat)
    (by simp)]
  rw [List.map_map]
  rfl

/-- Witness for C5's amended theorem: one label against two images raises
`IndexError` with both keys already buffered. -/
theorem put_label_undersupply_partial_buffer_witness :
    LMDB_Dataset.put 0 LMDB_Dataset.init
        [⟨.fp32, [1], [0]⟩, ⟨.fp32, [1], [1]⟩] (.list [7]) Option.none =
      some ({ LMDB_Dataset.init with key_list := [] ++ (List.range 2).map (fun i => dbKey (0 + i) []) },
        some .indexError) :=
  put_label_undersupply_partial_buffer LMDB_Dataset.init
    [⟨.fp32, [1], [0]⟩, ⟨.fp32, [1], [1]⟩] [7] (by decide)

/-- C4, counterexample: the key the writer actually assigns to index 0 with
the default empty suffix is the byte string of `"0000000000__ "` — thirteen
bytes ending in a space (32), because the suffix format `"{:1}"` pads the
empty suffix to width one — not the claimed `"0000000000__"` (twelve bytes,
48 = `'0'`, 95 = `'_'`). -/
theorem db_key_format_counterexample :
    dbKey 0 [] = [48, 48, 48, 48, 48, 48, 48, 48, 48, 48, 95, 95, 32] ∧
    dbKey 0 [] ≠ [48, 48, 48, 48, 48, 48, 48, 48, 48, 48, 95, 95] :=
  ⟨rfl, by decide⟩

/-- C4, amended: putting N arrays across any batching of put calls (N below
the flush threshold and at most `10^10`) assigns the keys
`"0000000000__ "`, `"0000000001__ "`, ... — the 10-digit zero-padded index,
the delimiter `"__"`, and the empty suffix formatted to a single space — in
strictly increasing byte order; after `close()`, a reader iterating the store
yields exactly those N records in the same order, with arrays equal to the
originals for arrays in the datum round-trip domain (`GoodArr`: nonempty
shape, positive size unless float32, elements in dtype range). -/
theorem writer_reader_pipeline (bs : List (List NDArray)) (qs cap : Nat)
    (hgood : ∀ a ∈ bs.flatten, GoodArr a)
    (hq : bs.flatten.length < qs)
    (hN : bs.flatten.length ≤ 10 ^ 10)
    (hcap : 1 ≤ cap) :
    ∃ w1 fuel w2,
      putSeq 0 (LMDB_Dataset.init qs cap) bs = some (w1, Option.none) ∧
      w1.key_list = (List.range bs.flatten.length).map (fun i => dbKey i []) ∧
      List.Pairwise (fun k1 k2 => bytesLt k1 k2 = true) w1.key_list ∧
      LMDB_Dataset.close fuel w1 = some w2 ∧
      lmdb_data w2.committed =
        ((List.range bs.flatten.length).zip bs.flatten).map
          (fun p => (dbKey p.1 [], Except.ok p.2)) := by
  have hps := putSeq_good bs (LMDB_Dataset.init qs cap) hgood
    (by simpa [LMDB_Dataset.init] using hq)
  have hkeyfun : (fun i => dbKey ((LMDB_Dataset.init qs cap).index + i) []) =
      (fun i => dbKey i []) := by
    funext i
    simp [LMDB_Dataset.init]
  rw [hkeyfun] at hps
  set N := bs.flatten.length with hNdef
  set keys := (List.range N).map (fun i => dbKey i []) with hkeys
  set vals := bs.flatten.map (fun a => datumOf a Option.none) with hvals
  have hklen : keys.length = N := by
    rw [hkeys, List.length_map, List.length_range]
  have hvlen : vals.length = N := by
    rw [hvals, List.length_map]
  have hpairkeys : List.Pairwise (fun k1 k2 => bytesLt k1 k2 = true) keys := by
    rw [hkeys, List.pairwise_map]
    apply List.Pairwise.imp_of_mem ?_ (List.pairwise_lt_range N)
    intro i j hi hj hij
    exact dbKey_mono hij (lt_of_lt_of_le (List.mem_range.mp hj) hN) [] []
  have hw1 : putSeq 0 (LMDB_Dataset.init qs cap) bs =
      some (⟨[], [], cap, qs, N, keys, vals⟩, Option.none) := by
    rw [hps]
    simp [LMDB_Dataset.init]
  rcases Nat.eq_zero_or_pos N with hN0 | hNpos
  · -- empty store: close is a no-op on the empty buffer and the reader sees nothing
    have hfl : bs.flatten = [] := List.length_eq_zero.mp hN0
    refine ⟨⟨[], [], cap, qs, N, keys, vals⟩, 0,
      ⟨[], [], cap, qs, N, keys, vals⟩, hw1, rfl, hpairkeys, ?_, ?_⟩
    · unfold LMDB_Dataset.close LMDB_Dataset.put_batch
      rw [if_pos (by simp [hklen, hN0])]
    · show lmdb_data [] = _
      rw [hNdef, hfl]
      simp [lmdb_data]
  · -- close flushes the whole buffer, then the cursor decodes it in order
    obtain ⟨fuel, cap2, hflush⟩ := flushAux_total [] (keys.zip vals) cap hcap
      (by rw [List.map_fst_zip keys vals (by omega)]; exact hpairkeys)
      (by intro kc hkc; exact absurd hkc (List.not_mem_nil kc))
    refine ⟨⟨[], [], cap, qs, N, keys, vals⟩, fuel,
      ⟨keys.zip vals, [], cap2, qs, N, [], []⟩, hw1, rfl, hpairkeys, ?_, ?_⟩
    · unfold LMDB_Dataset.close LMDB_Dataset.put_batch
      rw [if_neg (show ¬((⟨[], [], cap, qs, N, keys, vals⟩ :
          LMDB_Dataset).key_list.length = 0) by
        show ¬(keys.length = 0)
        rw [hklen]
        omega)]
      show (match flushAux fuel (keys.zip vals)
          (LMDB_Dataset.toDb ⟨[], [], cap, qs, N, keys, vals⟩) with
        | Option.none => Option.none
        | some d => some ({ committed := d.committed, pending := d.pending, capacity := d.capacity, queue_size := qs, index := N, key_list := [], value_list := [] } : LMDB_Dataset)) = _
      rw [show LMDB_Dataset.toDb ⟨[], [], cap, qs, N, keys, vals⟩ =
        ⟨[], [], cap, keys.zip vals⟩ from rfl]
      rw [hflush]
      rfl
    · show lmdb_data (keys.zip vals) = _
      rw [hkeys, hvals, List.zip_map]
      unfold lmdb_data
      rw [List.map_map]
      apply List.map_congr_left
      intro p hp
      have hmem : p.2 ∈ bs.flatten := (List.of_mem_zip hp).2
      show (dbKey p.1 [], datum_to_array (datumOf p.2 Option.none)) = _
      rw [datum_to_array_datumOf Option.none (hgood p.2 hmem)]

/-- Witness for C4's amended theorem: three arrays over two `put` calls on a
capacity-one store (so `close` must double the capacity while flushing) are
read back in key order, equal to the originals. -/
theorem writer_reader_pipeline_witness :
    ∃ w1 fuel w2,
      putSeq 0 (LMDB_Dataset.init 100 1)
        ([[⟨.fp32, [1], [4]⟩], [⟨.i8, [2], [5, -6]⟩, ⟨.u16, [1], [700]⟩]] :
          List (List NDArray)) = some (w1, Option.none) ∧
      w1.key_list = (List.range ([[⟨.fp32, [1], [4]⟩],
        [⟨.i8, [2], [5, -6]⟩, ⟨.u16, [1], [700]⟩]] :
          List (List NDArray)).flatten.length).map (fun i => dbKey i []) ∧
      List.Pairwise (fun k1 k2 => bytesLt k1 k2 = true) w1.key_list ∧
      LMDB_Dataset.close fuel w1 = some w2 ∧
      lmdb_data w2.committed =
        ((List.range ([[⟨.fp32, [1], [4]⟩],
          [⟨.i8, [2], [5, -6]⟩, ⟨.u16, [1], [700]⟩]] :
            List (List NDArray)).flatten.length).zip
          ([[⟨.fp32, [1], [4]⟩], [⟨.i8, [2], [5, -6]⟩, ⟨.u16, [1], [700]⟩]] :
            List (List NDArray)).flatten).map
          (fun p => (dbKey p.1 [], Except.ok p.2)) :=
  writer_reader_pipeline
    ([[⟨.fp32, [1], [4]⟩], [⟨.i8, [2], [5, -6]⟩, ⟨.u16, [1], [700]⟩]] :
      List (List NDArray)) 100 1
    (by decide) (by decide) (by decide) (by decide)

end TpuPerfIO

